import Mathlib

set_option linter.unusedSectionVars false
set_option maxRecDepth 100000

/-!
Shallow embedding of the `chmike/cache` Go package (file `cache.go`, with the
test-only helpers of `cache_test.go`), a fixed-capacity key-value cache with
second-chance (clock) eviction over a 64-bit-word ejectable bitmap.

Modelling conventions:
* Go `uint64` words are `Nat` kept below `2 ^ 64`; `^x` is xor with `mask64`,
  and shifts are masked with `mask64` exactly where Go truncates.
* The Go built-in `map[K]int` is an association list `List (K × Nat)` with
  unique keys; `idxLookup` / `idxInsert` / `idxErase` model map read, write
  and `delete`.
* Slices are `List`s accessed with `getD` / `set`; every access made by the
  code on a well-formed cache is in range.  `Init` returns an `Option`
  because the Go code panics (index out of range / invalid `make` size) when
  the rounded capacity is not positive.
* The unbounded eviction scan of `Add` is written with explicit fuel
  `bits.length + 1`; the Go loop stores all-ones into every zero word it
  passes, so after at most `bits.length + 1` probes it must stop, making the
  fueled function equal to the Go loop on every input.
-/

namespace ChmikeCache

variable {K V : Type} [DecidableEq K] [Inhabited K] [Inhabited V]

/-- All-ones 64-bit word, Go `^uint64(0)`. -/
def mask64 : Nat := 2 ^ 64 - 1

/-- Go bitwise complement on `uint64`. -/
def comp (x : Nat) : Nat := x ^^^ mask64

/-- Fueled helper for `bits.TrailingZeros64`; structural on the fuel so that
the kernel can evaluate it. -/
def tzAux : Nat → Nat → Nat
  | 0, _ => 0
  | f + 1, m => if m % 2 = 1 then 0 else tzAux f (m / 2) + 1

/-- Go `bits.TrailingZeros64`: trailing zeros of a 64-bit word, 64 for 0. -/
def tz64 (m : Nat) : Nat := tzAux 64 m

/-- Go map read `m[k]`: value of the first pair with key `k`. -/
def idxLookup : List (K × Nat) → K → Option Nat
  | [], _ => none
  | p :: t, k => if p.1 = k then some p.2 else idxLookup t k

/-- Go map write `m[k] = v`: replace the binding of `k`, or append it. -/
def idxInsert : List (K × Nat) → K → Nat → List (K × Nat)
  | [], k, v => [(k, v)]
  | p :: t, k, v => if p.1 = k then (k, v) :: t else p :: idxInsert t k v

/-- Go map `delete(m, k)`: drop the binding of `k`. -/
def idxErase : List (K × Nat) → K → List (K × Nat)
  | [], _ => []
  | p :: t, k => if p.1 = k then t else p :: idxErase t k

/-- One cached slot, Go `item[K, V]`: key, value and the precomputed
complement mask `^(1 << (index % 64))` used to clear the slot's bitmap bit. -/
structure item (K V : Type) where
  key : K
  value : V
  bit : Nat

/-- The Go zero value `item[K, V]{}`. -/
def emptyItem [Inhabited K] [Inhabited V] : item K V :=
  { key := default, value := default, bit := 0 }

/-- The cache state, Go `Cache[K, V]` (the mutex is not part of the
sequential state). -/
structure Cache (K V : Type) where
  idx : List (K × Nat)
  items : List (item K V)
  bits : List Nat
  handIdx : Nat
  handMask : Nat
  len : Nat

namespace Cache

/-- Go `Init`: round the size up to a multiple of 64 with `(size+63) &^ 63`
(on two's-complement integers this is `m - m % 64` with Euclidean mod) and
reallocate every store.  Returns `none` where the Go code panics: a negative
rounded size makes `make` abort, and a zero rounded size makes the store
`c.bits[0].Store(^uint64(0))` index an empty slice.  Note the Go method does
not assign `c.len`, so the previous length survives. -/
def Init (c : Cache K V) (size : Int) : Option (Cache K V) :=
  let r : Int := (size + 63) - (size + 63) % 64
  if r < 0 then none
  else
    let capN : Nat := r.toNat
    let nWords : Nat := capN / 64
    if nWords = 0 then none
    else some { c with
      idx := [],
      items := List.replicate capN emptyItem,
      bits := (List.replicate nWords 0).set 0 mask64,
      handIdx := 0,
      handMask := mask64 }

/-- Go `New`: `Init` applied to the zero value of `Cache`. -/
def NewCache (size : Int) : Option (Cache K V) :=
  Init { idx := [], items := [], bits := [], handIdx := 0, handMask := 0, len := 0 } size

/-- Go `Reset`: clear the index and the slots, zero the length and put the
hand back at word 0 with a full mask.  The bitmap words are left untouched
by the code. -/
def Reset (c : Cache K V) : Cache K V :=
  { c with
    idx := [],
    len := 0,
    items := List.replicate c.items.length emptyItem,
    handIdx := 0,
    handMask := mask64 }

/-- Go `Cap`. -/
def Cap (c : Cache K V) : Nat := c.items.length

/-- Go `Len`. -/
def Len (c : Cache K V) : Nat := c.len

/-- Go `Get`: on a hit, return the value and atomically clear the slot's
bitmap bit with `bits[idx/64].And(items[idx].bit)`. -/
def Get (c : Cache K V) (key : K) : V × Bool × Cache K V :=
  match idxLookup c.idx key with
  | some i =>
      let w := (c.bits.getD (i / 64) 0) &&& (c.items.getD i emptyItem).bit
      ((c.items.getD i emptyItem).value, true, { c with bits := c.bits.set (i / 64) w })
  | none => (default, false, c)

/-- Go `Has`: a map lookup under the read lock; no state is written. -/
def Has (c : Cache K V) (key : K) : Bool × Cache K V :=
  ((idxLookup c.idx key).isSome, c)

/-- The write performed on the first examined word of an eviction sweep when
its masked value is zero: Go `c.bits[c.handIdx].Or(c.handMask)`. -/
def orHandMask (w mask : Nat) : Nat := w ||| mask

/-- The Go `for` loop of the eviction sweep: scan forward (wrapping at the
end) until a word loads non-zero, storing all-ones into every zero word
passed.  Returns the updated bitmap and the word index where it stopped;
`none` means the fuel ran out. -/
def sweepLoop : Nat → List Nat → Nat → Option (List Nat × Nat)
  | 0, _, _ => none
  | fuel + 1, bs, i =>
      if bs.getD i 0 = 0 then sweepLoop fuel (bs.set i mask64) ((i + 1) % bs.length)
      else some (bs, i)

/-- Lines 128-141 of `cache.go`: load the hand word masked with `handMask`;
if zero, or `handMask` into it, advance the hand and run the scan loop.
Returns the updated bitmap, the final hand word index and the non-zero
word value `mbits` from which the victim bit is taken. -/
def findVictim (fuel : Nat) (bs : List Nat) (hIdx hMask : Nat) :
    Option (List Nat × Nat × Nat) :=
  if bs.getD hIdx 0 &&& hMask = 0 then
    (sweepLoop fuel (bs.set hIdx (orHandMask (bs.getD hIdx 0) hMask))
        ((hIdx + 1) % bs.length)).map
      (fun p => (p.1, p.2, p.1.getD p.2 0))
  else some (bs, hIdx, bs.getD hIdx 0 &&& hMask)

/-- Go `Add`.  Three paths: overwrite an existing key, append into a free
slot, or (cache full) evict the slot of the lowest set bit found by the
clock sweep.  `none` only when the fueled sweep is exhausted, which the
termination theorem rules out. -/
def Add (c : Cache K V) (key : K) (value : V) : Option (V × Bool × Cache K V) :=
  match idxLookup c.idx key with
  | some i =>
      let items1 := c.items.set i { c.items.getD i emptyItem with value := value }
      let w := (c.bits.getD (i / 64) 0) &&& (c.items.getD i emptyItem).bit
      some ((c.items.getD i emptyItem).value, true,
        { c with items := items1, bits := c.bits.set (i / 64) w })
  | none =>
    if c.len < c.items.length then
      let e : item K V := { key := key, value := value, bit := comp (1 <<< (c.len % 64)) }
      let w := (c.bits.getD (c.len / 64) 0) &&& e.bit
      some (default, false,
        { c with
          items := c.items.set c.len e,
          bits := c.bits.set (c.len / 64) w,
          idx := idxInsert c.idx key c.len,
          len := c.len + 1 })
    else
      match findVictim (c.bits.length + 1) c.bits c.handIdx c.handMask with
      | none => none
      | some (bs2, h2, m) =>
          let bit := tz64 m
          let i := h2 * 64 ||| bit
          let oldValue := (c.items.getD i emptyItem).value
          let idx2 := idxInsert (idxErase c.idx (c.items.getD i emptyItem).key) key i
          let items2 := c.items.set i
            { c.items.getD i emptyItem with key := key, value := value }
          let bs3 := bs2.set h2 ((bs2.getD h2 0) &&& (items2.getD i emptyItem).bit)
          let hm := (mask64 <<< (bit + 1)) &&& mask64
          if hm = 0 then
            some (oldValue, true,
              { c with idx := idx2, items := items2, bits := bs3,
                       handIdx := (h2 + 1) % bs2.length, handMask := mask64 })
          else
            some (oldValue, true,
              { c with idx := idx2, items := items2, bits := bs3,
                       handIdx := h2, handMask := hm })

/-- Go `Delete`.  On a hit at index `i`, remove the binding, decrement the
length and, when `i` is not the last occupied slot, move the last item into
slot `i`.  Faithful to the code, the last slot is zeroed at line 181
*before* line 182 reads its `bit` field, so the condition actually tests
whether the whole word `bits[len/64]` is zero. -/
def Delete (c : Cache K V) (key : K) : V × Bool × Cache K V :=
  match idxLookup c.idx key with
  | none => (default, false, c)
  | some i =>
      let value := (c.items.getD i emptyItem).value
      let idx1 := idxErase c.idx key
      let len1 := c.len - 1
      if len1 ≠ i then
        let last := c.items.getD len1 emptyItem
        let idx2 := idxInsert idx1 last.key i
        let items1 := (c.items.set i
            { c.items.getD i emptyItem with key := last.key, value := last.value }).set
          len1 emptyItem
        let w := c.bits.getD (len1 / 64) 0
        let wAnd := (c.bits.getD (i / 64) 0) &&& (items1.getD i emptyItem).bit
        let wOr := (c.bits.getD (i / 64) 0) ||| comp (items1.getD i emptyItem).bit
        let bits1 :=
          if w &&& comp (items1.getD len1 emptyItem).bit = 0 then
            c.bits.set (i / 64) wAnd
          else
            c.bits.set (i / 64) wOr
        (value, true,
          { c with idx := idx2, items := items1.set len1 emptyItem,
                   bits := bits1, len := len1 })
      else
        (value, true,
          { c with idx := idx1, items := c.items.set len1 emptyItem, len := len1 })

/-- Go `Items`: the key/value pairs reachable from the index map. -/
def Items (c : Cache K V) : List (K × V) :=
  c.idx.map (fun p => (p.1, (c.items.getD p.2 emptyItem).value))

/-- Test helper `ejectable` of `cache_test.go`. -/
def ejectable (c : Cache K V) (i : Nat) : Bool :=
  ((c.bits.getD (i / 64) 0) &&& (1 <<< (i % 64))) == (1 <<< (i % 64))

/-- Test helper `setEjectable` of `cache_test.go`. -/
def setEjectable (c : Cache K V) (i : Nat) (v : Bool) : Cache K V :=
  let wOr := (c.bits.getD (i / 64) 0) ||| (1 <<< (i % 64))
  let wAnd := (c.bits.getD (i / 64) 0) &&& comp (1 <<< (i % 64))
  if v then { c with bits := c.bits.set (i / 64) wOr }
  else { c with bits := c.bits.set (i / 64) wAnd }

end Cache

/-- The value the specification's sweep examines at offset `d` from the hand:
the hand word masked with `remainingMask` at `d = 0`, then each following
word (wrapping at the end) in full. -/
def maskedWordAt (bs : List Nat) (h hMask d : Nat) : Nat :=
  if d = 0 then bs.getD h 0 &&& hMask else bs.getD ((h + d) % bs.length) 0

/-- Modelled from the specification's wording of the clock sweep: scan from
the hand word (under `remainingMask`), then ascending with wrap-around, and
return `wordIndex * 64 + bitPosition` of the lowest set bit of the first
word whose (masked) value is non-zero. -/
def scanSpecAux (bs : List Nat) (h hMask : Nat) : Nat → Nat → Option Nat
  | _, 0 => none
  | d, steps + 1 =>
      if maskedWordAt bs h hMask d = 0 then scanSpecAux bs h hMask (d + 1) steps
      else some (((h + d) % bs.length) * 64 + tz64 (maskedWordAt bs h hMask d))

/-- The specification-side victim index: first non-zero (masked) word within
one pass over the bitmap, starting at the hand. -/
def scanVictimSpec (bs : List Nat) (h hMask : Nat) : Option Nat :=
  scanSpecAux bs h hMask 0 bs.length

/-- The structural invariant of claim C7, which is also the repository's own
test invariant `check()`: the index has exactly `len` entries, each binding
points below `len` at a slot holding its key, every occupied slot is indexed
back at its own position (occupancy is contiguous on `[0, len)`), and `len`
is bounded by the capacity. -/
def StructInv (c : Cache K V) : Prop :=
  c.idx.length = c.len ∧
  (∀ p ∈ c.idx, p.2 < c.len ∧ (c.items.getD p.2 emptyItem).key = p.1) ∧
  (∀ i ∈ List.range c.len, idxLookup c.idx ((c.items.getD i emptyItem).key) = some i) ∧
  c.len ≤ c.items.length

instance (c : Cache K V) : Decidable (StructInv c) := by
  unfold StructInv
  infer_instance

/-- Well-formedness of the representation, facts guaranteed by construction
in Go: sizes agree (`cap = 64 * words`, at least one word), the hand is in
range with a non-zero mask, every bitmap word and the mask are 64-bit
values, occupied slots carry the complement mask of their own position, and
the Go map has no duplicate keys. -/
def WF (c : Cache K V) : Prop :=
  c.items.length = 64 * c.bits.length ∧
  1 ≤ c.bits.length ∧
  c.handIdx < c.bits.length ∧
  c.handMask ≠ 0 ∧
  c.handMask < 2 ^ 64 ∧
  (∀ w ∈ c.bits, w < 2 ^ 64) ∧
  c.len ≤ c.items.length ∧
  (∀ i ∈ List.range c.len, (c.items.getD i emptyItem).bit = comp (1 <<< (i % 64))) ∧
  (c.idx.map Prod.fst).Nodup

instance (c : Cache K V) : Decidable (WF c) := by
  unfold WF
  infer_instance

/-- State builder for concrete runs: the cache after `Add` (the Go call
always returns; `getD` only covers the `Option` of the fueled model). -/
def afterAdd (c : Cache K V) (k : K) (v : V) : Cache K V :=
  ((Cache.Add c k v).map (fun r => r.2.2)).getD c

/-- State builder for concrete runs: the cache after `Get`. -/
def afterGet (c : Cache K V) (k : K) : Cache K V :=
  (Cache.Get c k).2.2

/-- The Go zero value of `Cache[int, int]`. -/
def zeroCache : Cache Nat Nat :=
  { idx := [], items := [], bits := [], handIdx := 0, handMask := 0, len := 0 }

/-- `New[int, int](64)`. -/
def new64 : Cache Nat Nat := (Cache.NewCache 64).getD zeroCache

/-- Scenario for claim C1: capacity 64 with three entries added. -/
def cDel : Cache Nat Nat := afterAdd (afterAdd (afterAdd new64 0 10) 1 11) 2 12

/-- Scenario for claim C2: one entry added, then `Reset`. -/
def cReset : Cache Nat Nat := Cache.Reset (afterAdd new64 0 0)

/-- Capacity-64 cache filled with keys `0..63` (values equal to keys). -/
def cFull : Cache Nat Nat := (List.range 64).foldl (fun c i => afterAdd c i i) new64

/-- `cFull` after adding key 64, which evicts slot 0 and leaves the hand at
word 0 with mask `^uint64(0) << 1`. -/
def cWrap : Cache Nat Nat := afterAdd cFull 64 64

/-- Scenario for claim C3: `cWrap` after `Get` on the keys of slots `1..63`,
leaving bitmap word 0 equal to zero while the hand mask excludes bit 0. -/
def cSweep : Cache Nat Nat := (List.range 63).foldl (fun c j => afterGet c (j + 1)) cWrap

/-- Capacity-64 cache filled with keys `0..63`, values `100..163`. -/
def cFill : Cache Nat Nat := (List.range 64).foldl (fun c i => afterAdd c i (100 + i)) new64

/-- Scenario for claim C5: all 64 slots referenced, then only slot 5 forced
ejectable with the repository's test helper. -/
def cSlot5 : Cache Nat Nat := Cache.setEjectable cFill 5 true

/-- Scenario for claim C7: a capacity-64 cache holding one entry. -/
def cOne : Cache Nat Nat := afterAdd new64 0 0

/-! ### Helper lemmas about lists -/

theorem getD_set_self {α : Type} (l : List α) (i : Nat) (a d : α) (h : i < l.length) :
    (l.set i a).getD i d = a := by
  induction l generalizing i with
  | nil => simp at h
  | cons x t ih =>
    cases i with
    | zero => rfl
    | succ n => simpa using ih n (by simpa using h)

theorem getD_set_ne {α : Type} (l : List α) (i j : Nat) (a d : α) (h : i ≠ j) :
    (l.set i a).getD j d = l.getD j d := by
  induction l generalizing i j with
  | nil => rfl
  | cons x t ih =>
    cases i with
    | zero =>
      cases j with
      | zero => exact absurd rfl h
      | succ m => rfl
    | succ n =>
      cases j with
      | zero => rfl
      | succ m => simpa using ih n m (fun hh => h (by rw [hh]))

theorem isSome_map {α β : Type} (f : α → β) (o : Option α) :
    (o.map f).isSome = o.isSome := by
  cases o <;> rfl

theorem getD_mem {α : Type} (l : List α) (i : Nat) (d : α) (h : i < l.length) :
    l.getD i d ∈ l := by
  induction l generalizing i with
  | nil => simp at h
  | cons x t ih =>
    cases i with
    | zero => simp
    | succ n => exact List.mem_cons_of_mem x (ih n (by simpa using h))

/-! ### Helper lemmas about trailing zeros -/

theorem tzAux_lt : ∀ (f m : Nat), 0 < m → m < 2 ^ f → tzAux f m < f := by
  intro f
  induction f with
  | zero => intro m h1 h2; omega
  | succ g ih =>
    intro m h1 h2
    unfold tzAux
    by_cases hp : m % 2 = 1
    · rw [if_pos hp]; omega
    · rw [if_neg hp]
      have h3 : 0 < m / 2 := by omega
      have hpow : 2 ^ (g + 1) = 2 * 2 ^ g := by rw [Nat.pow_succ]; ring
      have h4 : m / 2 < 2 ^ g := by omega
      have := ih (m / 2) h3 h4
      omega

theorem tzAux_spec : ∀ (f m : Nat), 0 < m → m < 2 ^ f →
    m.testBit (tzAux f m) = true ∧ ∀ j, j < tzAux f m → m.testBit j = false := by
  intro f
  induction f with
  | zero => intro m h1 h2; omega
  | succ g ih =>
    intro m h1 h2
    unfold tzAux
    by_cases hp : m % 2 = 1
    · rw [if_pos hp]
      constructor
      · rw [Nat.testBit_zero]; simp [hp]
      · omega
    · rw [if_neg hp]
      have h3 : 0 < m / 2 := by omega
      have hpow : 2 ^ (g + 1) = 2 * 2 ^ g := by rw [Nat.pow_succ]; ring
      have h4 : m / 2 < 2 ^ g := by omega
      obtain ⟨ihA, ihB⟩ := ih (m / 2) h3 h4
      constructor
      · rw [Nat.testBit_add_one]; exact ihA
      · intro j hj
        cases j with
        | zero => rw [Nat.testBit_zero]; simp [hp]
        | succ j => rw [Nat.testBit_add_one]; exact ihB j (by omega)

theorem tz64_lt (m : Nat) (h1 : 0 < m) (h2 : m < 2 ^ 64) : tz64 m < 64 :=
  tzAux_lt 64 m h1 h2

theorem tz64_testBit (m : Nat) (h1 : 0 < m) (h2 : m < 2 ^ 64) :
    m.testBit (tz64 m) = true ∧ ∀ j, j < tz64 m → m.testBit j = false :=
  tzAux_spec 64 m h1 h2

/-! ### Helper lemmas about 64-bit words -/

theorem mask64_lt : mask64 < 2 ^ 64 := by
  have : 0 < 2 ^ 64 := Nat.pos_pow_of_pos 64 (by omega)
  unfold mask64
  omega

theorem mul64_lor_eq_add (a b : Nat) (hb : b < 64) : a * 64 ||| b = a * 64 + b := by
  have hmul : a * 64 = 2 ^ 6 * a := by norm_num; ring
  have hb6 : b < 2 ^ 6 := by norm_num; omega
  apply Nat.eq_of_testBit_eq
  intro j
  rw [Nat.testBit_or, hmul, Nat.testBit_mul_pow_two, Nat.testBit_mul_pow_two_add a hb6 j]
  by_cases hj : j < 6
  · have : ¬ j ≥ 6 := by omega
    simp [hj, this]
  · have hge : j ≥ 6 := by omega
    have hbj : b.testBit j = false := by
      apply Nat.testBit_lt_two_pow
      calc b < 2 ^ 6 := hb6
        _ ≤ 2 ^ j := Nat.pow_le_pow_right (by omega) hge
    simp [hj, hge, hbj]

theorem lor_ne_zero_right (w mask : Nat) (h : mask ≠ 0) : w ||| mask ≠ 0 := by
  intro h0
  apply h
  have := Nat.eq_of_testBit_eq (x := w ||| mask) (y := 0)
  apply Nat.eq_of_testBit_eq
  intro j
  have hj : (w ||| mask).testBit j = Nat.testBit 0 j := by rw [h0]
  rw [Nat.testBit_or] at hj
  simp only [Nat.zero_testBit] at hj ⊢
  exact (Bool.or_eq_false_iff.mp hj).2

theorem testBit_comp_shift_self (j : Nat) (hj : j < 64) :
    (comp (1 <<< j)).testBit j = false := by
  unfold comp mask64
  rw [Nat.testBit_xor, Nat.one_shiftLeft, Nat.testBit_two_pow_self,
    Nat.testBit_two_pow_sub_one]
  simp [hj]

/-! ### Helper lemmas about the index map -/

theorem idxLookup_insert_self (m : List (K × Nat)) (k : K) (v : Nat) :
    idxLookup (idxInsert m k v) k = some v := by
  induction m with
  | nil => simp [idxInsert, idxLookup]
  | cons p t ih =>
    by_cases h : p.1 = k
    · simp [idxInsert, h, idxLookup]
    · simp [idxInsert, h, idxLookup, ih]

theorem idxLookup_some_mem (m : List (K × Nat)) (k : K) (i : Nat)
    (h : idxLookup m k = some i) : (k, i) ∈ m := by
  induction m with
  | nil => simp [idxLookup] at h
  | cons p t ih =>
    by_cases hp : p.1 = k
    · simp only [idxLookup, if_pos hp] at h
      have h2 : p.2 = i := Option.some.inj h
      have h3 : p = (k, i) := by
        cases p
        simp_all
      rw [← h3]
      exact List.mem_cons_self p t
    · simp only [idxLookup, if_neg hp] at h
      exact List.mem_cons_of_mem p (ih h)

/-! ### Helper lemmas about the eviction scan loop -/

theorem add_mod_ne_self (i t n : Nat) (hi : i < n) (ht0 : 0 < t) (htn : t < n) :
    (i + t) % n ≠ i := by
  intro h
  by_cases hlt : i + t < n
  · rw [Nat.mod_eq_of_lt hlt] at h
    omega
  · have hge : n ≤ i + t := by omega
    have h2 : i + t - n < n := by omega
    rw [Nat.mod_eq_sub_mod hge, Nat.mod_eq_of_lt h2] at h
    omega

theorem sweepLoop_isSome : ∀ (fuel : Nat) (bs : List Nat) (i : Nat), i < bs.length →
    (∃ d, d < bs.length ∧ d < fuel ∧ bs.getD ((i + d) % bs.length) 0 ≠ 0) →
    (Cache.sweepLoop fuel bs i).isSome = true := by
  intro fuel
  induction fuel with
  | zero =>
    rintro bs i hi ⟨d, _, h2, _⟩
    omega
  | succ g ih =>
    rintro bs i hi ⟨d, hdn, hdf, hne⟩
    unfold Cache.sweepLoop
    by_cases hz : bs.getD i 0 = 0
    · rw [if_pos hz]
      have hd0 : 0 < d := by
        rcases Nat.eq_zero_or_pos d with h0 | h0
        · subst h0
          rw [Nat.add_zero, Nat.mod_eq_of_lt hi] at hne
          exact absurd hz hne
        · exact h0
      have hlen : (bs.set i mask64).length = bs.length := by simp
      apply ih
      · rw [hlen]
        exact Nat.mod_lt _ (by omega)
      · refine ⟨d - 1, ?_, ?_, ?_⟩
        · rw [hlen]; omega
        · omega
        · rw [hlen]
          have hpos : ((i + 1) % bs.length + (d - 1)) % bs.length = (i + d) % bs.length := by
            rw [Nat.mod_add_mod]
            congr 1
            omega
          rw [hpos, getD_set_ne bs i ((i + d) % bs.length) mask64 0
            (fun h => absurd h.symm (add_mod_ne_self i d bs.length hi hd0 hdn))]
          exact hne
    · rw [if_neg hz]
      rfl

theorem sweepLoop_reach : ∀ (d fuel : Nat) (bs : List Nat) (i : Nat), i < bs.length →
    d < bs.length → d < fuel →
    (∀ e, e < d → bs.getD ((i + e) % bs.length) 0 = 0) →
    bs.getD ((i + d) % bs.length) 0 ≠ 0 →
    ∃ bs2, Cache.sweepLoop fuel bs i = some (bs2, (i + d) % bs.length) ∧
      bs2.getD ((i + d) % bs.length) 0 = bs.getD ((i + d) % bs.length) 0 ∧
      bs2.length = bs.length := by
  intro d
  induction d with
  | zero =>
    intro fuel bs i hi hdn hdf hzero hne
    cases fuel with
    | zero => omega
    | succ g =>
      have hii : (i + 0) % bs.length = i := by
        rw [Nat.add_zero, Nat.mod_eq_of_lt hi]
      rw [hii] at hne ⊢
      refine ⟨bs, ?_, rfl, rfl⟩
      unfold Cache.sweepLoop
      rw [if_neg hne]
  | succ e ih =>
    intro fuel bs i hi hdn hdf hzero hne
    cases fuel with
    | zero => omega
    | succ g =>
      have hz0 : bs.getD i 0 = 0 := by
        have := hzero 0 (by omega)
        rwa [Nat.add_zero, Nat.mod_eq_of_lt hi] at this
      have hlen : (bs.set i mask64).length = bs.length := by simp
      have hne1 : ∀ t, 0 < t → t < bs.length → i ≠ (i + t) % bs.length :=
        fun t ha hb hh => absurd hh.symm (add_mod_ne_self i t bs.length hi ha hb)
      have hstep : ∀ e1, ((i + 1) % bs.length + e1) % bs.length
          = (i + (e1 + 1)) % bs.length := by
        intro e1
        rw [Nat.mod_add_mod]
        congr 1
        omega
      obtain ⟨bs2, hA, hB, hC⟩ := ih g (bs.set i mask64) ((i + 1) % bs.length)
        (by rw [hlen]; exact Nat.mod_lt _ (by omega))
        (by rw [hlen]; omega)
        (by omega)
        (by
          intro e1 he1
          rw [hlen, hstep e1,
            getD_set_ne bs i ((i + (e1 + 1)) % bs.length) mask64 0
              (hne1 (e1 + 1) (by omega) (by omega))]
          exact hzero (e1 + 1) (by omega))
        (by
          rw [hlen, hstep e,
            getD_set_ne bs i ((i + (e + 1)) % bs.length) mask64 0
              (hne1 (e + 1) (by omega) (by omega))]
          exact hne)
      rw [hlen] at hA hB hC
      rw [hstep e] at hA hB
      rw [getD_set_ne bs i ((i + (e + 1)) % bs.length) mask64 0
        (hne1 (e + 1) (by omega) (by omega))] at hB
      refine ⟨bs2, ?_, hB, hC⟩
      unfold Cache.sweepLoop
      rw [if_pos hz0]
      exact hA

theorem sweepLoop_sound : ∀ (fuel : Nat) (bs : List Nat) (i : Nat) (bs2 : List Nat)
    (i2 : Nat), i < bs.length → (∀ w ∈ bs, w < 2 ^ 64) →
    Cache.sweepLoop fuel bs i = some (bs2, i2) →
    i2 < bs.length ∧ bs2.length = bs.length ∧ bs2.getD i2 0 ≠ 0 ∧
      (∀ w ∈ bs2, w < 2 ^ 64) := by
  intro fuel
  induction fuel with
  | zero =>
    intro bs i bs2 i2 _ _ h
    simp [Cache.sweepLoop] at h
  | succ g ih =>
    intro bs i bs2 i2 hi hw h
    unfold Cache.sweepLoop at h
    by_cases hz : bs.getD i 0 = 0
    · rw [if_pos hz] at h
      have hlen : (bs.set i mask64).length = bs.length := by simp
      have hw2 : ∀ w ∈ bs.set i mask64, w < 2 ^ 64 := by
        intro w hwmem
        rcases List.mem_or_eq_of_mem_set hwmem with hmem | hmem
        · exact hw w hmem
        · rw [hmem]; exact mask64_lt
      have hrec := ih (bs.set i mask64) ((i + 1) % bs.length) bs2 i2
        (by rw [hlen]; exact Nat.mod_lt _ (by omega)) hw2 h
      rw [hlen] at hrec
      exact hrec
    · rw [if_neg hz] at h
      have hp := Option.some.inj h
      have hbs : bs = bs2 := congrArg Prod.fst hp
      have hii : i = i2 := congrArg Prod.snd hp
      subst hbs
      subst hii
      exact ⟨hi, rfl, hz, hw⟩

theorem findVictim_isSome (fuel : Nat) (bs : List Nat) (hIdx hMask : Nat)
    (h1 : hIdx < bs.length) (hm : hMask ≠ 0) (hf : bs.length ≤ fuel) :
    (Cache.findVictim fuel bs hIdx hMask).isSome = true := by
  unfold Cache.findVictim
  by_cases hz : bs.getD hIdx 0 &&& hMask = 0
  · rw [if_pos hz, isSome_map]
    have hlen : (bs.set hIdx (Cache.orHandMask (bs.getD hIdx 0) hMask)).length
        = bs.length := by simp
    apply sweepLoop_isSome
    · rw [hlen]
      exact Nat.mod_lt _ (by omega)
    · refine ⟨bs.length - 1, ?_, ?_, ?_⟩
      · rw [hlen]; omega
      · omega
      · rw [hlen]
        have hpos : ((hIdx + 1) % bs.length + (bs.length - 1)) % bs.length = hIdx := by
          rw [Nat.mod_add_mod]
          have heq : hIdx + 1 + (bs.length - 1) = hIdx + bs.length := by omega
          rw [heq, Nat.add_mod_right, Nat.mod_eq_of_lt h1]
        rw [hpos, getD_set_self bs hIdx (Cache.orHandMask (bs.getD hIdx 0) hMask) 0 h1]
        exact lor_ne_zero_right _ _ hm
  · rw [if_neg hz]
    rfl

theorem findVictim_sound (fuel : Nat) (bs : List Nat) (hIdx hMask : Nat)
    (bs2 : List Nat) (h2 m : Nat)
    (h1 : hIdx < bs.length) (hmask : hMask < 2 ^ 64) (hw : ∀ w ∈ bs, w < 2 ^ 64)
    (heq : Cache.findVictim fuel bs hIdx hMask = some (bs2, h2, m)) :
    h2 < bs.length ∧ m ≠ 0 ∧ m < 2 ^ 64 ∧ bs2.length = bs.length := by
  unfold Cache.findVictim at heq
  by_cases hz : bs.getD hIdx 0 &&& hMask = 0
  · rw [if_pos hz] at heq
    obtain ⟨p, hp1, hp2⟩ := Option.map_eq_some'.mp heq
    obtain ⟨pbs, pi⟩ := p
    have hbs : pbs = bs2 := congrArg (fun q => q.1) hp2
    have hh : pi = h2 := congrArg (fun q => q.2.1) hp2
    have hmv : pbs.getD pi 0 = m := congrArg (fun q => q.2.2) hp2
    have hlen1 : (bs.set hIdx (Cache.orHandMask (bs.getD hIdx 0) hMask)).length
        = bs.length := by simp
    have hw1 : ∀ w ∈ bs.set hIdx (Cache.orHandMask (bs.getD hIdx 0) hMask),
        w < 2 ^ 64 := by
      intro w hwmem
      rcases List.mem_or_eq_of_mem_set hwmem with hmem | hmem
      · exact hw w hmem
      · rw [hmem]
        exact Nat.or_lt_two_pow (hw _ (getD_mem bs hIdx 0 h1)) hmask
    have hs := sweepLoop_sound fuel _ ((hIdx + 1) % bs.length) pbs pi
      (by rw [hlen1]; exact Nat.mod_lt _ (by omega)) hw1 hp1
    rw [hlen1] at hs
    obtain ⟨s1, s2, s3, s4⟩ := hs
    refine ⟨?_, ?_, ?_, ?_⟩
    · rw [← hh]
      exact s1
    · rw [← hmv]
      exact s3
    · rw [← hmv]
      exact s4 _ (getD_mem pbs pi 0 (by rw [s2]; exact s1))
    · rw [← hbs]
      exact s2
  · rw [if_neg hz] at heq
    have hp := Option.some.inj heq
    have hbs : bs = bs2 := congrArg (fun q => q.1) hp
    have hh : hIdx = h2 := congrArg (fun q => q.2.1) hp
    have hmv : bs.getD hIdx 0 &&& hMask = m := congrArg (fun q => q.2.2) hp
    subst hbs
    subst hh
    refine ⟨h1, ?_, ?_, rfl⟩
    · rw [← hmv]
      exact hz
    · rw [← hmv]
      exact Nat.lt_of_le_of_lt Nat.and_le_left (hw _ (getD_mem bs hIdx 0 h1))

/-! ### Shape of `Add` on a full cache -/

theorem Add_full_shape (c : Cache K V) (key : K) (value : V)
    (hwf : WF c) (hnone : idxLookup c.idx key = none)
    (hfull : ¬ c.len < c.items.length) :
    ∃ i s, i < c.items.length ∧
      Cache.Add c key value = some ((c.items.getD i emptyItem).value, true, s) ∧
      s.idx = idxInsert (idxErase c.idx (c.items.getD i emptyItem).key) key i ∧
      s.items = c.items.set i
        { c.items.getD i emptyItem with key := key, value := value } ∧
      s.len = c.len := by
  obtain ⟨w1, w2, w3, w4, w5, w6, w7, w8, w9⟩ := hwf
  have hvs : (Cache.findVictim (c.bits.length + 1) c.bits c.handIdx c.handMask).isSome
      = true := findVictim_isSome (c.bits.length + 1) c.bits c.handIdx c.handMask w3 w4
      (by omega)
  obtain ⟨⟨bs2, h2, m⟩, hfv⟩ := Option.isSome_iff_exists.mp hvs
  obtain ⟨s1, s2, s3, s4⟩ := findVictim_sound (c.bits.length + 1) c.bits c.handIdx
    c.handMask bs2 h2 m w3 w5 w6 hfv
  have htz : tz64 m < 64 := tz64_lt m (by omega) s3
  have hlor : h2 * 64 ||| tz64 m = h2 * 64 + tz64 m := mul64_lor_eq_add h2 (tz64 m) htz
  have hlt : h2 * 64 ||| tz64 m < c.items.length := by
    rw [hlor, w1]
    have : h2 + 1 ≤ c.bits.length := s1
    calc h2 * 64 + tz64 m < h2 * 64 + 64 := by omega
      _ = (h2 + 1) * 64 := by ring
      _ ≤ c.bits.length * 64 := Nat.mul_le_mul_right 64 s1
      _ = 64 * c.bits.length := by ring
  have hAdd : ∃ s, Cache.Add c key value
      = some ((c.items.getD (h2 * 64 ||| tz64 m) emptyItem).value, true, s) ∧
      s.idx = idxInsert (idxErase c.idx
        (c.items.getD (h2 * 64 ||| tz64 m) emptyItem).key) key (h2 * 64 ||| tz64 m) ∧
      s.items = c.items.set (h2 * 64 ||| tz64 m)
        { c.items.getD (h2 * 64 ||| tz64 m) emptyItem with key := key, value := value } ∧
      s.len = c.len := by
    simp only [Cache.Add, hnone, hfv]
    rw [if_neg hfull]
    by_cases hhm : (mask64 <<< (tz64 m + 1)) &&& mask64 = 0
    · rw [if_pos hhm]
      exact ⟨_, rfl, rfl, rfl, rfl⟩
    · rw [if_neg hhm]
      exact ⟨_, rfl, rfl, rfl, rfl⟩
  obtain ⟨s, hs1, hs2, hs3, hs4⟩ := hAdd
  exact ⟨h2 * 64 ||| tz64 m, s, hlt, hs1, hs2, hs3, hs4⟩

/-! ### The specification scan agrees with the code's sweep -/

theorem scanSpecAux_elim : ∀ (steps dStart : Nat) (bs : List Nat) (h hMask v : Nat),
    scanSpecAux bs h hMask dStart steps = some v →
    ∃ d, dStart ≤ d ∧ d < dStart + steps ∧
      (∀ e, dStart ≤ e → e < d → maskedWordAt bs h hMask e = 0) ∧
      maskedWordAt bs h hMask d ≠ 0 ∧
      v = ((h + d) % bs.length) * 64 + tz64 (maskedWordAt bs h hMask d) := by
  intro steps
  induction steps with
  | zero =>
    intro dStart bs h hMask v hx
    simp [scanSpecAux] at hx
  | succ g ih =>
    intro dStart bs h hMask v hx
    unfold scanSpecAux at hx
    by_cases hz : maskedWordAt bs h hMask dStart = 0
    · rw [if_pos hz] at hx
      obtain ⟨d, hd1, hd2, hd3, hd4, hd5⟩ := ih (dStart + 1) bs h hMask v hx
      refine ⟨d, by omega, by omega, ?_, hd4, hd5⟩
      intro e he1 he2
      rcases Nat.eq_or_lt_of_le he1 with he | he
      · rw [← he]
        exact hz
      · exact hd3 e (by omega) he2
    · rw [if_neg hz] at hx
      refine ⟨dStart, Nat.le_refl _, by omega, ?_, hz, (Option.some.inj hx).symm⟩
      intro e he1 he2
      omega

theorem scan_agrees_findVictim (bs : List Nat) (h hMask v fuel : Nat)
    (hh : h < bs.length) (hw : ∀ w ∈ bs, w < 2 ^ 64)
    (hfuel : bs.length ≤ fuel)
    (hscan : scanVictimSpec bs h hMask = some v) :
    ∃ bs2 h2 m, Cache.findVictim fuel bs h hMask = some (bs2, h2, m) ∧
      h2 * 64 ||| tz64 m = v := by
  obtain ⟨d, hd0, hdlt, hzero, hne, hv⟩ :=
    scanSpecAux_elim bs.length 0 bs h hMask v hscan
  rw [Nat.zero_add] at hdlt
  have hmlt : ∀ j, j < bs.length → bs.getD j 0 < 2 ^ 64 :=
    fun j hj => hw _ (getD_mem bs j 0 hj)
  rcases Nat.eq_zero_or_pos d with hd | hd
  · subst hd
    have hm0 : maskedWordAt bs h hMask 0 = bs.getD h 0 &&& hMask := by
      simp [maskedWordAt]
    rw [hm0] at hne hv
    unfold Cache.findVictim
    rw [if_neg hne]
    refine ⟨bs, h, bs.getD h 0 &&& hMask, rfl, ?_⟩
    rw [hv, Nat.add_zero, Nat.mod_eq_of_lt hh]
    apply mul64_lor_eq_add
    apply tz64_lt
    · omega
    · exact Nat.lt_of_le_of_lt Nat.and_le_left (hmlt h hh)
  · have hz0 : bs.getD h 0 &&& hMask = 0 := by
      have := hzero 0 (Nat.le_refl 0) hd
      simpa [maskedWordAt] using this
    have hmasked : ∀ t, 0 < t →
        maskedWordAt bs h hMask t = bs.getD ((h + t) % bs.length) 0 := by
      intro t h1
      unfold maskedWordAt
      rw [if_neg (by omega)]
    unfold Cache.findVictim
    rw [if_pos hz0]
    have hlen1 : (bs.set h (Cache.orHandMask (bs.getD h 0) hMask)).length
        = bs.length := by simp
    have hne1 : ∀ t, 0 < t → t < bs.length → h ≠ (h + t) % bs.length :=
      fun t h1 h2 hhh => absurd hhh.symm (add_mod_ne_self h t bs.length hh h1 h2)
    have hstep : ∀ e1, ((h + 1) % bs.length + e1) % bs.length
        = (h + (e1 + 1)) % bs.length := by
      intro e1
      rw [Nat.mod_add_mod]
      congr 1
      omega
    have hval : ∀ t, 0 < t → t < bs.length →
        (bs.set h (Cache.orHandMask (bs.getD h 0) hMask)).getD
          ((h + t) % bs.length) 0 = bs.getD ((h + t) % bs.length) 0 :=
      fun t h1 h2 => getD_set_ne bs h _ _ 0 (hne1 t h1 h2)
    have hd1 : d - 1 + 1 = d := by omega
    obtain ⟨bs2, hA, hB, hC⟩ := sweepLoop_reach (d - 1) fuel
      (bs.set h (Cache.orHandMask (bs.getD h 0) hMask)) ((h + 1) % bs.length)
      (by rw [hlen1]; exact Nat.mod_lt _ (by omega))
      (by rw [hlen1]; omega)
      (by omega)
      (by
        intro e he
        rw [hlen1, hstep e, hval (e + 1) (by omega) (by omega)]
        have := hzero (e + 1) (by omega) (by omega)
        rwa [hmasked (e + 1) (by omega)] at this)
      (by
        rw [hlen1, hstep (d - 1), hd1, hval d hd hdlt]
        rw [hmasked d hd] at hne
        exact hne)
    rw [hlen1, hstep (d - 1), hd1] at hA hB
    rw [hval d hd hdlt] at hB
    refine ⟨bs2, (h + d) % bs.length, bs2.getD ((h + d) % bs.length) 0, ?_, ?_⟩
    · rw [hA]
      rfl
    · rw [hB, ← hmasked d hd, hv]
      apply mul64_lor_eq_add
      apply tz64_lt
      · rcases Nat.eq_zero_or_pos (maskedWordAt bs h hMask d) with hq | hq
        · exact absurd hq hne
        · exact hq
      · rw [hmasked d hd]
        exact hmlt _ (Nat.mod_lt _ (by omega))

/-! ### Claim theorems -/

/-- Claim C1 (code bug).  In a capacity-64 cache holding keys 0, 1, 2 (all
three referenced, ejectable bits clear), `Delete 0` moves the entry of
key 2 — whose own ejectable bit is clear — into slot 0, yet afterwards
slot 0's ejectable bit is set: because `cache.go` line 181 zeroes
`items[len]` before line 182 reads its `bit` field, the carried-over state
degenerates to "whole word non-zero" (here true thanks to the free-slot
bits) instead of the moved entry's own bit, so the bit does not travel with
the entry. -/
theorem c1_delete_moved_bit :
    Cache.ejectable cDel 2 = false ∧
    (Cache.Delete cDel 0).1 = 10 ∧
    (Cache.Delete cDel 0).2.1 = true ∧
    idxLookup (Cache.Delete cDel 0).2.2.idx 2 = some 0 ∧
    Cache.ejectable (Cache.Delete cDel 0).2.2 0 = true := by
  decide

/-- Claim C2 (code bug).  `Reset` restores length, index map, slot contents
and hand, but leaves the ejectable bitmap untouched: after `Add 0 0` the
bitmap word 0 is `mask64 - 1` (bit 0 cleared), and `Reset` keeps that value
instead of the Init-time `mask64`, contradicting the claim (and the code's
own doc comment that `Reset` recreates the state just after `Init`). -/
theorem c2_reset_keeps_bitmap :
    new64.bits.getD 0 0 = mask64 ∧
    cReset.len = 0 ∧
    cReset.idx = [] ∧
    cReset.handIdx = 0 ∧
    cReset.handMask = mask64 ∧
    cReset.bits.getD 0 0 = mask64 - 1 ∧
    mask64 - 1 ≠ mask64 := by
  decide

/-- Claim C7 (code bug).  `Init` does not reset `len`, so applied to a
well-formed cache holding one entry it yields a state with `len = 1` but an
empty index map, violating the structural invariant (index size equals
`Count`) that every public operation is claimed to preserve. -/
theorem c7_init_keeps_stale_len :
    StructInv cOne ∧
    cOne.len = 1 ∧
    (Cache.Init cOne 64).map (fun c2 => (c2.len, c2.idx.length, decide (StructInv c2)))
      = some (1, 0, false) := by
  decide

/-- Claim C4 counterexample.  `New`/`Init` do not succeed on non-positive
sizes: the rounded size `(size + 63) &^ 63` is 0 for `size ∈ [-63, 0]`
(whereupon `c.bits[0].Store` indexes an empty slice) and negative for
`size ≤ -64` (whereupon `make` aborts); either way the call panics instead
of rounding up to the claimed minimum of 64. -/
theorem c4_counterexample :
    (Cache.NewCache 0 : Option (Cache Nat Nat)).isNone = true ∧
    (Cache.NewCache (-5) : Option (Cache Nat Nat)).isNone = true ∧
    (Cache.NewCache (-64) : Option (Cache Nat Nat)).isNone = true := by
  decide

/-- Claim C4 amended.  For every size `n ≥ 1`, `New`/`Init` succeed and the
capacity is `n` rounded up to the next multiple of 64 (hence at least 64);
for every `n ≤ 0` the call faults (modelled as `none`) rather than being
rounded up to the minimum. -/
theorem c4_amended_rounding (n : Int) :
    (1 ≤ n → ∃ c : Cache Nat Nat, Cache.NewCache n = some c ∧
      (Cache.Cap c : Int) = 64 * ((n + 63) / 64) ∧
      64 ≤ Cache.Cap c ∧
      n ≤ (Cache.Cap c : Int) ∧
      Cache.Cap c % 64 = 0) ∧
    (n ≤ 0 → (Cache.NewCache n : Option (Cache Nat Nat)) = none) := by
  constructor
  · intro h1
    have hnn : ¬ ((n + 63) - (n + 63) % 64 < 0) := by omega
    have hwords : ¬ (((n + 63) - (n + 63) % 64).toNat / 64 = 0) := by omega
    refine ⟨{ idx := [],
              items := List.replicate ((n + 63) - (n + 63) % 64).toNat emptyItem,
              bits := (List.replicate (((n + 63) - (n + 63) % 64).toNat / 64) 0).set 0 mask64,
              handIdx := 0, handMask := mask64, len := 0 }, ?_, ?_⟩
    · simp only [Cache.NewCache, Cache.Init]
      rw [if_neg hnn, if_neg hwords]
    · simp only [Cache.Cap, List.length_replicate]
      refine ⟨?_, ?_, ?_, ?_⟩ <;> omega
  · intro h1
    simp only [Cache.NewCache, Cache.Init]
    by_cases hneg : (n + 63) - (n + 63) % 64 < 0
    · rw [if_pos hneg]
    · have hz : ((n + 63) - (n + 63) % 64).toNat / 64 = 0 := by omega
      rw [if_neg hneg, if_pos hz]

/-- Claim C4 amended, witness at size 5: the cache is created with capacity
64. -/
theorem c4_amended_rounding_witness :
    ∃ c : Cache Nat Nat, Cache.NewCache 5 = some c ∧
      (Cache.Cap c : Int) = 64 * ((5 + 63) / 64) ∧
      64 ≤ Cache.Cap c ∧
      (5 : Int) ≤ (Cache.Cap c : Int) ∧
      Cache.Cap c % 64 = 0 :=
  (c4_amended_rounding 5).1 (by norm_num)

/-- Claim C3 counterexample.  A reachable full capacity-64 state (fill with
keys 0..63, add key 64, then `Get` the keys of slots 1..63) has bitmap word
0 equal to 0 and hand mask `mask64 - 1` (bit 0 excluded), so the next
`Add`'s masked load is zero; the code then writes `word ||| handMask
= mask64 - 1` — not all-ones: bit 0 (outside `remainingMask`) stays 0 — and
consequently evicts slot 1 (old value 1) where an all-ones store would have
made slot 0 the victim. -/
theorem c3_counterexample :
    cSweep.len = cSweep.items.length ∧
    cSweep.bits.getD 0 0 &&& cSweep.handMask = 0 ∧
    Cache.orHandMask (cSweep.bits.getD 0 0) cSweep.handMask = mask64 - 1 ∧
    mask64 - 1 ≠ mask64 ∧
    (Cache.Add cSweep 100 100).map (fun r => r.1) = some 1 ∧
    (Cache.Add cSweep 100 100).map (fun r => r.2.2.bits.getD 0 0) = some (mask64 - 3) ∧
    Nat.testBit (mask64 - 3) 0 = false := by
  decide

/-- Claim C3 amended.  When the masked hand word is zero, the sweep ORs
`remainingMask` into that word — so a bit position outside the mask keeps
its old value and only masked positions are forced to 1 — and then each
subsequent word the loop finds zero is stored as all-ones before the hand
advances past it. -/
theorem c3_amended_or_not_allones (fuel : Nat) (bs : List Nat) (h hMask i : Nat) :
    (bs.getD h 0 &&& hMask = 0 →
      Cache.findVictim fuel bs h hMask =
        (Cache.sweepLoop fuel (bs.set h (Cache.orHandMask (bs.getD h 0) hMask))
          ((h + 1) % bs.length)).map (fun p => (p.1, p.2, p.1.getD p.2 0))) ∧
    (∀ j, (Cache.orHandMask (bs.getD h 0) hMask).testBit j
        = ((bs.getD h 0).testBit j || hMask.testBit j)) ∧
    (bs.getD i 0 = 0 →
      Cache.sweepLoop (fuel + 1) bs i
        = Cache.sweepLoop fuel (bs.set i mask64) ((i + 1) % bs.length)) := by
  refine ⟨?_, ?_, ?_⟩
  · intro hz
    unfold Cache.findVictim
    rw [if_pos hz]
  · intro j
    unfold Cache.orHandMask
    exact Nat.testBit_or _ _ j
  · intro hz
    have hdef : Cache.sweepLoop (fuel + 1) bs i
        = if bs.getD i 0 = 0 then
            Cache.sweepLoop fuel (bs.set i mask64) ((i + 1) % bs.length)
          else some (bs, i) := rfl
    rw [hdef, if_pos hz]

/-- Claim C3 amended, witness: at the reachable state `cSweep` the zero
branch is taken and the word written is `or`, not an all-ones store. -/
theorem c3_amended_or_not_allones_witness :
    Cache.findVictim 2 cSweep.bits 0 cSweep.handMask =
      (Cache.sweepLoop 2
        (cSweep.bits.set 0 (Cache.orHandMask (cSweep.bits.getD 0 0) cSweep.handMask))
        ((0 + 1) % cSweep.bits.length)).map (fun p => (p.1, p.2, p.1.getD p.2 0)) ∧
    Cache.sweepLoop 2 cSweep.bits 0
      = Cache.sweepLoop 1 (cSweep.bits.set 0 mask64) ((0 + 1) % cSweep.bits.length) :=
  ⟨(c3_amended_or_not_allones 2 cSweep.bits 0 cSweep.handMask 0).1 (by decide),
   (c3_amended_or_not_allones 1 cSweep.bits 0 cSweep.handMask 0).2.2 (by decide)⟩

/-- Claim C5 (confirmed).  On a full cache the victim is determined by the
clock sweep: whenever the specification scan (first word whose masked value
is non-zero, starting at the hand word under `remainingMask`, then
ascending with wrap-around) designates victim index `v`, the code's sweep
stops at that word with a non-zero value `m` whose trailing-zero position
is its lowest set bit, and the code's victim index `wordIndex * 64 | bit`
equals `v`.  Concretely: capacity 64 filled with 64 referenced keys, only
slot 5 ejectable — adding key 999 evicts exactly slot 5, returns its
original value 105 with `true`, installs the new key at slot 5, and `Has`
on the evicted key 5 is false afterwards. -/
theorem c5_eviction_victim :
    (∀ (bs : List Nat) (h hMask v fuel : Nat), h < bs.length →
      (∀ w ∈ bs, w < 2 ^ 64) → hMask < 2 ^ 64 → bs.length ≤ fuel →
      scanVictimSpec bs h hMask = some v →
      ∃ bs2 h2 m, Cache.findVictim fuel bs h hMask = some (bs2, h2, m) ∧
        m.testBit (tz64 m) = true ∧
        (∀ j, j < tz64 m → m.testBit j = false) ∧
        h2 * 64 ||| tz64 m = v) ∧
    (scanVictimSpec cSlot5.bits cSlot5.handIdx cSlot5.handMask = some 5 ∧
      (Cache.Add cSlot5 999 999).map (fun r => (r.1, r.2.1)) = some (105, true) ∧
      (Cache.Add cSlot5 999 999).map (fun r => idxLookup r.2.2.idx 999)
        = some (some 5) ∧
      (Cache.Add cSlot5 999 999).map (fun r => (Cache.Has r.2.2 5).1) = some false) := by
  constructor
  · intro bs h hMask v fuel hh hw hmask hfuel hscan
    obtain ⟨bs2, h2, m, hfv, hlor⟩ :=
      scan_agrees_findVictim bs h hMask v fuel hh hw hfuel hscan
    obtain ⟨s1, s2, s3, s4⟩ := findVictim_sound fuel bs h hMask bs2 h2 m hh hmask hw hfv
    obtain ⟨t1, t2⟩ := tz64_testBit m (by omega) s3
    exact ⟨bs2, h2, m, hfv, t1, t2, hlor⟩
  · exact ⟨by decide, by decide, by decide, by decide⟩

/-- Claim C5 witness: the general sweep theorem applied to the concrete
slot-5 scenario state. -/
theorem c5_eviction_victim_witness :
    ∃ bs2 h2 m, Cache.findVictim 2 cSlot5.bits cSlot5.handIdx cSlot5.handMask
        = some (bs2, h2, m) ∧
      m.testBit (tz64 m) = true ∧
      (∀ j, j < tz64 m → m.testBit j = false) ∧
      h2 * 64 ||| tz64 m = 5 :=
  c5_eviction_victim.1 cSlot5.bits cSlot5.handIdx cSlot5.handMask 5 2
    (by decide) (by decide) (by decide) (by decide) (by decide)

/-- Claim C6 (confirmed).  `Add` returns the old value with `true` on an
overwrite (value replaced in place, ejectable bit cleared, nothing else
changed), the default value with `false` on a fresh append at index `len`
(key registered there, length incremented), and the evicted slot's value
with `true` on a full cache; the boolean is true exactly for overwrite and
eviction. -/
theorem c6_add_cases (c : Cache K V) (k : K) (v : V) (hw : WF c) (hs : StructInv c) :
    (∀ i, idxLookup c.idx k = some i →
      ∃ s, Cache.Add c k v = some ((c.items.getD i emptyItem).value, true, s) ∧
        (s.items.getD i emptyItem).value = v ∧
        (s.items.getD i emptyItem).key = (c.items.getD i emptyItem).key ∧
        s.idx = c.idx ∧ s.len = c.len ∧
        Nat.testBit (s.bits.getD (i / 64) 0) (i % 64) = false) ∧
    (idxLookup c.idx k = none → c.len < c.items.length →
      ∃ s, Cache.Add c k v = some (default, false, s) ∧
        (s.items.getD c.len emptyItem).key = k ∧
        (s.items.getD c.len emptyItem).value = v ∧
        s.len = c.len + 1 ∧
        idxLookup s.idx k = some c.len) ∧
    (idxLookup c.idx k = none → ¬ c.len < c.items.length →
      ∃ i s, i < c.items.length ∧
        Cache.Add c k v = some ((c.items.getD i emptyItem).value, true, s) ∧
        idxLookup s.idx k = some i ∧
        s.len = c.len) := by
  have hw' := hw
  obtain ⟨w1, w2, w3, w4, w5, w6, w7, w8, w9⟩ := hw'
  obtain ⟨s1c, s2c, s3c, s4c⟩ := hs
  refine ⟨?_, ?_, ?_⟩
  · intro i hi
    have hilen : i < c.len := (s2c (k, i) (idxLookup_some_mem c.idx k i hi)).1
    have hicap : i < c.items.length := by omega
    have hbit : (c.items.getD i emptyItem).bit = comp (1 <<< (i % 64)) :=
      w8 i (List.mem_range.mpr hilen)
    have hdiv : i / 64 < c.bits.length := by
      rw [Nat.div_lt_iff_lt_mul (by omega)]
      omega
    have hAdd : Cache.Add c k v = some ((c.items.getD i emptyItem).value, true,
        { c with items := c.items.set i { c.items.getD i emptyItem with value := v },
                 bits := c.bits.set (i / 64)
                   ((c.bits.getD (i / 64) 0) &&& (c.items.getD i emptyItem).bit) }) := by
      simp only [Cache.Add, hi]
    refine ⟨_, hAdd, ?_, ?_, rfl, rfl, ?_⟩
    · rw [getD_set_self c.items i _ emptyItem hicap]
    · rw [getD_set_self c.items i _ emptyItem hicap]
    · rw [getD_set_self c.bits (i / 64) _ 0 hdiv, hbit, Nat.testBit_and,
        testBit_comp_shift_self (i % 64) (Nat.mod_lt i (by omega)), Bool.and_false]
  · intro hnone hlt
    have hAdd : Cache.Add c k v = some (default, false,
        { c with
          items := c.items.set c.len
            { key := k, value := v, bit := comp (1 <<< (c.len % 64)) },
          bits := c.bits.set (c.len / 64)
            ((c.bits.getD (c.len / 64) 0) &&&
              ({ key := k, value := v, bit := comp (1 <<< (c.len % 64)) } : item K V).bit),
          idx := idxInsert c.idx k c.len,
          len := c.len + 1 }) := by
      simp only [Cache.Add, hnone, if_pos hlt]
    refine ⟨_, hAdd, ?_, ?_, rfl, ?_⟩
    · rw [getD_set_self c.items c.len _ emptyItem hlt]
    · rw [getD_set_self c.items c.len _ emptyItem hlt]
    · exact idxLookup_insert_self c.idx k c.len
  · intro hnone hfull
    obtain ⟨i, s, hlt, hAdd, hidx, hitems, hlen⟩ :=
      Add_full_shape c k v hw hnone hfull
    refine ⟨i, s, hlt, hAdd, ?_, hlen⟩
    rw [hidx]
    exact idxLookup_insert_self _ k i

/-- Claim C6 witness: the eviction case on the concrete full cache `cFill`,
adding the absent key 999. -/
theorem c6_add_cases_witness :
    ∃ i s, i < cFill.items.length ∧
      Cache.Add cFill 999 7 = some ((cFill.items.getD i emptyItem).value, true, s) ∧
      idxLookup s.idx 999 = some i ∧
      s.len = cFill.len :=
  (c6_add_cases cFill 999 7 (by decide) (by decide)).2.2 (by decide) (by decide)

/-- Claim C8 (confirmed).  For every well-formed cache, `Add k v`
immediately followed by `Get k` returns `(v, true)`: in all three `Add`
paths the key is indexed at a slot whose value is `v`, so the hit is
guaranteed. -/
theorem c8_add_then_get (c : Cache K V) (k : K) (v : V) (hw : WF c) (hs : StructInv c) :
    ∃ old b s, Cache.Add c k v = some (old, b, s) ∧
      (Cache.Get s k).1 = v ∧ (Cache.Get s k).2.1 = true := by
  have hw' := hw
  obtain ⟨w1, w2, w3, w4, w5, w6, w7, w8, w9⟩ := hw'
  obtain ⟨s1c, s2c, s3c, s4c⟩ := hs
  cases hik : idxLookup c.idx k with
  | some i =>
    have hilen : i < c.len := (s2c (k, i) (idxLookup_some_mem c.idx k i hik)).1
    have hicap : i < c.items.length := by omega
    have hAdd : Cache.Add c k v = some ((c.items.getD i emptyItem).value, true,
        { c with items := c.items.set i { c.items.getD i emptyItem with value := v },
                 bits := c.bits.set (i / 64)
                   ((c.bits.getD (i / 64) 0) &&& (c.items.getD i emptyItem).bit) }) := by
      simp only [Cache.Add, hik]
    refine ⟨_, _, _, hAdd, ?_, ?_⟩
    · simp only [Cache.Get, hik]
      rw [getD_set_self c.items i _ emptyItem hicap]
    · simp only [Cache.Get, hik]
  | none =>
    by_cases hlt : c.len < c.items.length
    · have hAdd : Cache.Add c k v = some (default, false,
          { c with
            items := c.items.set c.len
              { key := k, value := v, bit := comp (1 <<< (c.len % 64)) },
            bits := c.bits.set (c.len / 64)
              ((c.bits.getD (c.len / 64) 0) &&&
                ({ key := k, value := v, bit := comp (1 <<< (c.len % 64)) } : item K V).bit),
            idx := idxInsert c.idx k c.len,
            len := c.len + 1 }) := by
        simp only [Cache.Add, hik, if_pos hlt]
      have hlook : idxLookup (idxInsert c.idx k c.len) k = some c.len :=
        idxLookup_insert_self c.idx k c.len
      refine ⟨_, _, _, hAdd, ?_, ?_⟩
      · simp only [Cache.Get, hlook]
        rw [getD_set_self c.items c.len _ emptyItem hlt]
      · simp only [Cache.Get, hlook]
    · obtain ⟨i, s, hlt2, hAdd, hidx, hitems, hlen⟩ :=
        Add_full_shape c k v hw hik hlt
      have hlook : idxLookup s.idx k = some i := by
        rw [hidx]
        exact idxLookup_insert_self _ k i
      refine ⟨_, _, _, hAdd, ?_, ?_⟩
      · simp only [Cache.Get, hlook]
        rw [hitems, getD_set_self c.items i _ emptyItem hlt2]
      · simp only [Cache.Get, hlook]

/-- Claim C8 witness: add key 1 to the one-entry cache, then read it
back. -/
theorem c8_add_then_get_witness :
    ∃ old b s, Cache.Add cOne 1 42 = some (old, b, s) ∧
      (Cache.Get s 1).1 = 42 ∧ (Cache.Get s 1).2.1 = true :=
  c8_add_then_get cOne 1 42 (by decide) (by decide)

/-- Claim C9 (confirmed).  `Has` returns exactly presence and leaves the
whole state unchanged — in particular every ejectable bit — whereas `Get`
on the same present key clears the key's bit (so only `Get`, not `Has`,
protects the entry from the next sweep). -/
theorem c9_has_no_mutation (c : Cache K V) (k : K) :
    (Cache.Has c k).2 = c ∧
    ((Cache.Has c k).1 = true ↔ ∃ i, idxLookup c.idx k = some i) ∧
    (∀ i, idxLookup c.idx k = some i → i < c.len → WF c →
      (Cache.Has c k).2.bits = c.bits ∧
      Nat.testBit (((Cache.Get c k).2.2).bits.getD (i / 64) 0) (i % 64) = false) := by
  refine ⟨rfl, ?_, ?_⟩
  · simp [Cache.Has, Option.isSome_iff_exists]
  · intro i hi hlen hw
    obtain ⟨w1, w2, w3, w4, w5, w6, w7, w8, w9⟩ := hw
    have hbit : (c.items.getD i emptyItem).bit = comp (1 <<< (i % 64)) :=
      w8 i (List.mem_range.mpr hlen)
    have hdiv : i / 64 < c.bits.length := by
      rw [Nat.div_lt_iff_lt_mul (by omega)]
      omega
    refine ⟨rfl, ?_⟩
    simp only [Cache.Get, hi]
    rw [getD_set_self c.bits (i / 64) _ 0 hdiv, hbit, Nat.testBit_and,
      testBit_comp_shift_self (i % 64) (Nat.mod_lt i (by omega)), Bool.and_false]

/-- Claim C9 witness: on the one-entry cache, `Has 0` leaves the bitmap
untouched while `Get 0` leaves the entry's bit clear. -/
theorem c9_has_no_mutation_witness :
    (Cache.Has cOne 0).2.bits = cOne.bits ∧
    Nat.testBit (((Cache.Get cOne 0).2.2).bits.getD (0 / 64) 0) (0 % 64) = false :=
  (c9_has_no_mutation cOne 0).2.2 0 (by decide) (by decide) (by decide)

/-- Claim C10 (confirmed).  On a full well-formed cache whose hand mask is
non-zero of the shape "all-ones shifted left", the eviction scan succeeds
within fuel `bits.length` — the starting word is ORed with the non-zero
mask, every zero word passed is stored as all-ones, so at most one
wrap-around pass is examined — and `Add` of an absent key is total. -/
theorem c10_sweep_total (c : Cache K V) (k : K) (v : V)
    (hw : WF c) (hfull : ¬ c.len < c.items.length) (hnone : idxLookup c.idx k = none)
    (hshape : ∃ s, c.handMask = (mask64 <<< s) &&& mask64) (hnz : c.handMask ≠ 0) :
    (Cache.findVictim c.bits.length c.bits c.handIdx c.handMask).isSome = true ∧
    (Cache.Add c k v).isSome = true := by
  constructor
  · exact findVictim_isSome c.bits.length c.bits c.handIdx c.handMask
      hw.2.2.1 hnz (Nat.le_refl _)
  · obtain ⟨i, s, hlt, hAdd, h1, h2, h3⟩ := Add_full_shape c k v hw hnone hfull
    rw [hAdd]
    rfl

/-- Claim C10 witness: the full cache `cFill` (hand at word 0 with the full
mask, which is `mask64 <<< 0`). -/
theorem c10_sweep_total_witness :
    (Cache.findVictim cFill.bits.length cFill.bits cFill.handIdx
      cFill.handMask).isSome = true ∧
    (Cache.Add cFill 998 8).isSome = true :=
  c10_sweep_total cFill 998 8 (by decide) (by decide) (by decide)
    ⟨0, by decide⟩ (by decide)

end ChmikeCache
